import Mathlib

/-!
Verification of the bakery static-site generator (src/site.rs, src/latex.rs)
against its natural-language specification. The Rust code is shallowly
embedded: strings are lists of characters, Rust `Result` is `Except`,
external collaborators (KaTeX, syntect) are opaque function parameters, and
a Rust panic is modelled as a distinguished error value.
-/

/-! ## Build orchestrator (Site::build, src/site.rs lines 115-135) -/

/-- Models Rust `Result::or`: returns self if it is `Ok`, otherwise returns
the argument. This is the combinator `Site::build` uses on stage results. -/
def rustOr (a b : Except (List Char) Unit) : Except (List Char) Unit :=
  match a with
  | Except.ok _ => Except.ok ()
  | Except.error _ => b

/-- Models `Site::build` (src/site.rs): `render_content` runs first and its
error propagates via the `?` operator; the remaining five stage results
(clean, sass, assets, html, feed) are combined with
`clean.or(sass).or(assets).or(html).or(feed)`. Each argument is the result
produced by the corresponding stage. -/
def siteBuild (renderContent clean sass assets html feed : Except (List Char) Unit) :
    Except (List Char) Unit :=
  match renderContent with
  | Except.error e => Except.error e
  | Except.ok _ => rustOr (rustOr (rustOr (rustOr clean sass) assets) html) feed

/-! ## Atom feed (Site::render_feed, src/site.rs lines 390-421) -/

/-- Models the `Page` record of src/site.rs, with the fields the feed and
content stages read. `DateTime<Utc>` is modelled as an opaque timestamp. -/
structure Page where
  title : List Char
  description : List Char
  template : List Char
  date : Option Nat
  draft : Bool
  name : List Char
  content : List Char
deriving DecidableEq

/-- Models an Atom feed entry as built by `render_feed`: id, content value,
title text and updated time. -/
structure FeedEntry where
  id : List Char
  content : List Char
  title : List Char
  updated : Nat
deriving DecidableEq

/-- Models the entry list built by `Site::render_feed` (src/site.rs):
pages are filtered to those with a date, then each is mapped to an entry
with `id(&page.name)`, `content(page.content)`, `title(&page.title)` and
`updated(page.date.unwrap())`. The `unwrap` cannot fail after the filter;
it is modelled with a default that is never used. -/
def render_feed_entries (pages : List Page) : List FeedEntry :=
  (pages.filter (fun p => p.date.isSome)).map (fun p =>
    { id := p.name, content := p.content, title := p.title, updated := p.date.getD 0 })

/-! ## Watch mode (Site::watch, src/site.rs lines 138-175) -/

/-- A filesystem path, modelled as its list of components (each a list of
characters). Components are assumed to be plain names. -/
abbrev RPath := List (List Char)

/-- Models Rust `Path::extension` on the final path component: the portion
of the file name after the last dot, none when there is no file name, no
embedded dot, or the only dot is the leading one of a hidden file. -/
def fileExtension (f : List Char) : Option (List Char) :=
  match f with
  | [] => none
  | _ :: rest =>
    if rest.contains '.' then
      some (List.reverse (List.takeWhile (fun c => c ≠ '.') (List.reverse rest)))
    else none

/-- Models `path.extension()` for a component-list path: the extension of
the last component, none for an empty path. -/
def pathExtension (p : RPath) : Option (List Char) :=
  match p.getLast? with
  | none => none
  | some f => fileExtension f

/-- Models the first half of the watch filter in `Site::watch`:
`path.extension().map(|s| s.to_string_lossy().ends_with('~')).unwrap_or(false)`. -/
def isTempPath (p : RPath) : Bool :=
  (Option.map (fun e => decide (e.getLast? = some '~')) (pathExtension p)).getD false

/-- Models Rust `Path::starts_with`: component-wise prefix. -/
def startsWithPath (base p : RPath) : Bool :=
  List.isPrefixOf base p

/-- Models `notify::DebouncedEvent`: the five path-carrying variants the
watch loop rebuilds on, plus the variants that fall into its `_` arm. -/
inductive DebEvent
  | NoticeWrite (p : RPath)
  | NoticeRemove (p : RPath)
  | Create (p : RPath)
  | Write (p : RPath)
  | Chmod (p : RPath)
  | Remove (p : RPath)
  | Rename (p q : RPath)
  | Rescan
  | ErrorEv
deriving DecidableEq

/-- The path the watch loop match extracts from an event: the five
rebuild-qualifying arms bind a path (Rename binds its first path); the
other variants fall into the `_ => {}` arm. -/
def eventPath : DebEvent → Option RPath
  | DebEvent.Create p => some p
  | DebEvent.Chmod p => some p
  | DebEvent.Write p => some p
  | DebEvent.Remove p => some p
  | DebEvent.Rename p _ => some p
  | _ => none

/-- Models the rebuild decision of the watch loop in `Site::watch`: an
event triggers a rebuild when it carries a path whose extension does not
end in a tilde and which does not start with the target directory. -/
def triggersRebuild (targetDir : RPath) (ev : DebEvent) : Bool :=
  match eventPath ev with
  | some p => (!(isTempPath p)) && (!(startsWithPath targetDir p))
  | none => false

/-- Models one iteration of the watch loop body in `Site::watch`. The
`rebuild` argument is the combined result of `Site::new(&dir, drafts)` and
`site.build()` for this iteration. Both calls carry the `?` operator, so
their error propagates out of `watch`: an `error` return value models the
loop terminating with that error, an `ok` return models the loop
continuing with the next `rx.recv()`. -/
def watchIteration (targetDir : RPath) (ev : DebEvent)
    (rebuild : Except (List Char) Unit) : Except (List Char) Unit :=
  if triggersRebuild targetDir ev then rebuild else Except.ok ()

/-- The claim-side filter condition of C7: the path's final component (its
file name) ends in the backup marker tilde. -/
def filenameEndsTilde (p : RPath) : Bool :=
  (Option.map (fun f => decide (f.getLast? = some '~')) p.getLast?).getD false

/-! ## Theorems for the build orchestrator and the feed -/

/-- C1: the claim states that `Site::build` returns an error whenever at
least one stage fails, carrying the first failure. The code combines the
stage results with `Result::or`, which keeps the first `Ok`: with
`render_content` and `clean` succeeding and the SASS stage failing, the
build nevertheless returns `Ok(())`, silently discarding the failure. -/
theorem build_swallows_stage_failure :
    siteBuild (Except.ok ()) (Except.ok ()) (Except.error ("sass failed".toList))
      (Except.ok ()) (Except.ok ()) (Except.ok ()) = Except.ok () := rfl

/-- C10: the feed built by `render_feed` has exactly one entry for each
page whose date is present, in page order; pages without a date are
omitted; each entry takes its id from the page name (slug), its content
from the page's rendered content, its title from the page title and its
updated time from the page date. -/
theorem render_feed_entries_spec (pages : List Page) :
    render_feed_entries pages =
      pages.filterMap (fun p => Option.map (fun d =>
        { id := p.name, content := p.content, title := p.title,
          updated := d : FeedEntry }) p.date) ∧
    (render_feed_entries pages).length =
      (pages.filter (fun p => p.date.isSome)).length := by
  constructor
  · induction pages with
    | nil => rfl
    | cons p ps ih =>
      cases hd : p.date with
      | none =>
        simp [render_feed_entries, List.filter, List.filterMap, hd] at ih ⊢
        exact ih
      | some d =>
        simp [render_feed_entries, List.filter, List.filterMap, hd] at ih ⊢
        exact ih
  · simp [render_feed_entries]

/-! ## Theorems for watch mode -/

/-- C3: the claim states that a failed rebuild is reported and the watch
loop continues waiting. In the code both `Site::new(&dir, drafts)?` and
`site.build()?` carry the `?` operator inside the loop, so a rebuild
failure propagates out of `Site::watch` and the loop terminates, even
though the function's own doc comment says it does not return. Here a
qualifying write event whose rebuild fails makes the iteration propagate
the error (terminate) instead of continuing. -/
theorem watch_rebuild_failure_exits :
    watchIteration (["site".toList, "target".toList])
      (DebEvent.Write (["site".toList, "content".toList, "a.md".toList]))
      (Except.error ("rebuild failed".toList)) =
      Except.error ("rebuild failed".toList) := rfl

/-- C7 counterexample: the path `site/Makefile~` has a file name carrying
the trailing backup marker, so the claim says it must not trigger a
rebuild; but `Path::extension` is `None` for a dotless file name, so the
code's filter `extension().map(ends_with('~')).unwrap_or(false)` is false
and the write event does trigger a rebuild. -/
theorem watch_filter_counterexample :
    filenameEndsTilde (["site".toList, "Makefile~".toList]) = true ∧
    triggersRebuild (["site".toList, "target".toList])
      (DebEvent.Write (["site".toList, "Makefile~".toList])) = true := by
  constructor
  · rfl
  · rfl

/-- C7 amended: a Create/Chmod/Write/Remove/Rename event does not trigger
a rebuild exactly when its path's extension (in the sense of Rust
`Path::extension`) ends in a tilde or the path lies inside the target
directory; every other path triggers a rebuild; events of the remaining
kinds never trigger one. -/
theorem watch_filter_characterization (td : RPath) (ev : DebEvent) :
    (∀ p, eventPath ev = some p →
      (triggersRebuild td ev = false ↔
        ((∃ e, pathExtension p = some e ∧ e.getLast? = some '~') ∨
          List.isPrefixOf td p = true))) ∧
    (eventPath ev = none → triggersRebuild td ev = false) := by
  constructor
  · intro p hp
    simp only [triggersRebuild, hp, startsWithPath, isTempPath]
    generalize pathExtension p = pe
    cases pe with
    | none => cases h2 : List.isPrefixOf td p <;> simp [h2]
    | some e =>
      cases h2 : List.isPrefixOf td p <;>
        by_cases h1 : e.getLast? = some '~' <;>
          simp [h1, h2]
  · intro hp
    simp [triggersRebuild, hp]

/-- C7 witness: the characterization applied to a concrete write event for
an Emacs-style backup file `site/a.rs~`, whose extension `rs~` ends in the
tilde, so it does not trigger a rebuild. -/
theorem watch_filter_characterization_witness :
    triggersRebuild (["site".toList, "target".toList])
      (DebEvent.Write (["site".toList, "a.rs~".toList])) = false :=
  ((watch_filter_characterization (["site".toList, "target".toList])
      (DebEvent.Write (["site".toList, "a.rs~".toList]))).1
    (["site".toList, "a.rs~".toList]) rfl).mpr
    (Or.inl ⟨"rs~".toList, rfl, rfl⟩)

/-! ## Markdown event transformer (Site::render_content, src/site.rs lines 256-346) -/

/-- Models the pulldown-cmark events the transformer distinguishes:
inline code, fenced-code-block start and end (carrying the language tag),
text, raw HTML, and an opaque stand-in for every other event kind. -/
inductive MdEvent
  | Code (s : List Char)
  | StartFencedCode (kind : List Char)
  | EndFencedCode (kind : List Char)
  | Text (s : List Char)
  | Html (s : List Char)
  | Other (n : Nat)
deriving DecidableEq

/-- An error of the transformation loop: a propagated KaTeX render error,
or the Rust panic of the out-of-bounds sigil slice. -/
inductive TError
  | sliceFault
  | renderFault (s : List Char)
deriving DecidableEq

/-- The external collaborators of `render_content`, as opaque functions:
KaTeX with inline options, KaTeX with display-mode options, the syntax-set
lookup `find_syntax_by_token` (whether a grammar exists for a tag), and
`highlighted_html_for_string` (which cannot fail), taking tag and text. -/
structure RenderEnv where
  renderInline : List Char → Except (List Char) (List Char)
  renderBlock : List Char → Except (List Char) (List Char)
  hasGrammar : List Char → Bool
  highlight : List Char → List Char → List Char

/-- Models the Rust slice `s[1..s.len() - 1]` used to strip the sigils:
`none` models the bounds-check panic, which fires when the length is below
two (for the one-character text the range is `1..0`). -/
def rustSliceInterior (s : List Char) : Option (List Char) :=
  if 2 ≤ s.length then some (List.dropLast (List.drop 1 s)) else none

/-- The reserved fence tag dispatched to display-mode KaTeX. -/
def LATEX_TAG : List Char := "latex".toList

/-- The literal HTML pushed before the text of an unrecognized fence. -/
def PRE_OPEN : List Char := "<pre><code>".toList

/-- The literal HTML pushed after the text of an unrecognized fence. -/
def PRE_CLOSE : List Char := "</code></pre>".toList

/-- Models one iteration of the event loop in `Site::render_content`. The
state is `fence_kind`; the result is the updated state together with the
events pushed for this input event. A KaTeX failure propagates (the `?`
operator) and the out-of-bounds slice panic is the `sliceFault` error. -/
def stepEvent (env : RenderEnv) (fence : Option (List Char)) (ev : MdEvent) :
    Except TError (Option (List Char) × List MdEvent) :=
  match ev with
  | MdEvent.Code s =>
    if s.head? = some '$' ∧ s.getLast? = some '$' then
      match rustSliceInterior s with
      | none => Except.error TError.sliceFault
      | some interior =>
        match env.renderInline interior with
        | Except.error e => Except.error (TError.renderFault e)
        | Except.ok h => Except.ok (fence, [MdEvent.Html h])
    else Except.ok (fence, [MdEvent.Code s])
  | MdEvent.StartFencedCode kind =>
    if kind = [] then Except.ok (fence, [MdEvent.StartFencedCode kind])
    else Except.ok (some kind, [])
  | MdEvent.EndFencedCode kind =>
    match fence with
    | none => Except.ok (none, [MdEvent.EndFencedCode kind])
    | some _ => Except.ok (none, [])
  | MdEvent.Text s =>
    match fence with
    | some kind =>
      if kind = LATEX_TAG then
        match env.renderBlock s with
        | Except.error e => Except.error (TError.renderFault e)
        | Except.ok h => Except.ok (fence, [MdEvent.Html h])
      else if env.hasGrammar kind then
        Except.ok (fence, [MdEvent.Html (env.highlight kind s)])
      else
        Except.ok (fence, [MdEvent.Html PRE_OPEN, MdEvent.Text s, MdEvent.Html PRE_CLOSE])
    | none => Except.ok (fence, [MdEvent.Text s])
  | MdEvent.Html s => Except.ok (fence, [MdEvent.Html s])
  | MdEvent.Other n => Except.ok (fence, [MdEvent.Other n])

/-- Models the whole event loop of `Site::render_content`: fold
`stepEvent` over the event stream, concatenating the pushed events; the
first error aborts the page. -/
def transformEvents (env : RenderEnv) :
    Option (List Char) → List MdEvent → Except TError (List MdEvent)
  | _, [] => Except.ok []
  | fence, ev :: rest =>
    match stepEvent env fence ev with
    | Except.error e => Except.error e
    | Except.ok sr =>
      match transformEvents env sr.1 rest with
      | Except.error e => Except.error e
      | Except.ok out => Except.ok (sr.2 ++ out)

/-- The pure state update of one loop iteration: how `fence_kind` changes
on each event, independent of rendering outcomes. -/
def nextFence : Option (List Char) → MdEvent → Option (List Char)
  | fence, MdEvent.StartFencedCode kind => if kind = [] then fence else some kind
  | _, MdEvent.EndFencedCode _ => none
  | fence, _ => fence

/-- The three interception points of the transformer, as a predicate on
the current fence state and the event: sigil-wrapped inline code, fenced
start with a non-empty tag, fenced end while a fence is recorded, and
text while a fence is recorded. -/
def interceptedEvent (fence : Option (List Char)) : MdEvent → Bool
  | MdEvent.Code s => decide (s.head? = some '$' ∧ s.getLast? = some '$')
  | MdEvent.StartFencedCode kind => !(List.isEmpty kind)
  | MdEvent.EndFencedCode _ => fence.isSome
  | MdEvent.Text _ => fence.isSome
  | _ => false

/-- A concrete render environment used to instantiate the theorems on
closed inputs. -/
def sampleEnv : RenderEnv where
  renderInline := fun s => Except.ok ('<' :: s)
  renderBlock := fun s => Except.ok ('[' :: s)
  hasGrammar := fun k => k == ("rust".toList)
  highlight := fun _ s => '!' :: s

/-- A non-intercepted event is forwarded unchanged with the state kept. -/
theorem stepEvent_not_intercepted (env : RenderEnv) (fence : Option (List Char))
    (ev : MdEvent) (h : interceptedEvent fence ev = false) :
    stepEvent env fence ev = Except.ok (fence, [ev]) := by
  cases ev with
  | Code s =>
    simp only [interceptedEvent, decide_eq_false_iff_not] at h
    simp [stepEvent, h]
  | StartFencedCode kind =>
    have hk : kind = [] := by
      cases kind with
      | nil => rfl
      | cons c cs => simp [interceptedEvent] at h
    simp [stepEvent, hk]
  | EndFencedCode kind =>
    cases fence with
    | none => rfl
    | some k => simp [interceptedEvent] at h
  | Text s =>
    cases fence with
    | none => rfl
    | some k => simp [interceptedEvent] at h
  | Html s => rfl
  | Other n => rfl

/-- A successful step leaves the state `nextFence` prescribes. -/
theorem stepEvent_state (env : RenderEnv) (fence st : Option (List Char))
    (ev : MdEvent) (out : List MdEvent)
    (h : stepEvent env fence ev = Except.ok (st, out)) :
    st = nextFence fence ev := by
  cases ev with
  | Code s =>
    simp only [stepEvent] at h
    split at h
    · split at h
      · cases h
      · split at h
        · cases h
        · cases h; rfl
    · cases h; rfl
  | StartFencedCode kind =>
    simp only [stepEvent] at h
    split at h
    · cases h
      simp [nextFence, *]
    · cases h
      simp [nextFence, *]
  | EndFencedCode kind =>
    cases fence with
    | none => simp only [stepEvent] at h; cases h; rfl
    | some k => simp only [stepEvent] at h; cases h; rfl
  | Text s =>
    cases fence with
    | none => simp only [stepEvent] at h; cases h; rfl
    | some kind =>
      simp only [stepEvent] at h
      split at h
      · split at h
        · cases h
        · cases h; rfl
      · split at h
        · cases h; rfl
        · cases h; rfl
  | Html s => cases h; rfl
  | Other n => cases h; rfl

/-- Shape facts about a sigil-wrapped inline code text: both sigil tests
hold and the Rust slice strips exactly the two sigils. -/
theorem sigil_shape (m : List Char) :
    ('$' :: (m ++ ['$'])).head? = some '$' ∧
    ('$' :: (m ++ ['$'])).getLast? = some '$' ∧
    rustSliceInterior ('$' :: (m ++ ['$'])) = some m := by
  refine ⟨rfl, ?_, ?_⟩
  · rw [← List.cons_append, List.getLast?_append_cons]
    rfl
  · have hlen : 2 ≤ ('$' :: (m ++ ['$'])).length := by
      simp only [List.length_cons, List.length_append, List.length_nil]
      omega
    unfold rustSliceInterior
    rw [if_pos hlen]
    simp

/-- C5: an inline code event whose text is wrapped in a leading and a
trailing dollar sigil is replaced by the inline-mode equation rendering of
the text with the sigils stripped (a render failure propagating), and an
inline code event failing either sigil test is passed through unchanged. -/
theorem inline_code_sigil_dispatch (env : RenderEnv) (fence : Option (List Char))
    (s : List Char) :
    (∀ m h, s = '$' :: (m ++ ['$']) → env.renderInline m = Except.ok h →
      stepEvent env fence (MdEvent.Code s) = Except.ok (fence, [MdEvent.Html h])) ∧
    (∀ m e, s = '$' :: (m ++ ['$']) → env.renderInline m = Except.error e →
      stepEvent env fence (MdEvent.Code s) = Except.error (TError.renderFault e)) ∧
    (¬(s.head? = some '$' ∧ s.getLast? = some '$') →
      stepEvent env fence (MdEvent.Code s) = Except.ok (fence, [MdEvent.Code s])) := by
  refine ⟨?_, ?_, ?_⟩
  · intro m h hs hr
    subst hs
    obtain ⟨h1, h2, h3⟩ := sigil_shape m
    simp only [stepEvent, if_pos (And.intro h1 h2), h3, hr]
  · intro m e hs hr
    subst hs
    obtain ⟨h1, h2, h3⟩ := sigil_shape m
    simp only [stepEvent, if_pos (And.intro h1 h2), h3, hr]
  · intro hcond
    simp [stepEvent, hcond]

/-- C5 witness: with a concrete environment, the inline code `$x$` is
replaced by the rendered fragment and the inline code `abc` passes
through unchanged. -/
theorem inline_code_sigil_dispatch_witness :
    stepEvent sampleEnv none (MdEvent.Code ("$x$".toList)) =
      Except.ok (none, [MdEvent.Html ("<x".toList)]) ∧
    stepEvent sampleEnv none (MdEvent.Code ("abc".toList)) =
      Except.ok (none, [MdEvent.Code ("abc".toList)]) := by
  constructor
  · exact (inline_code_sigil_dispatch sampleEnv none ("$x$".toList)).1
      ("x".toList) ("<x".toList) rfl rfl
  · exact (inline_code_sigil_dispatch sampleEnv none ("abc".toList)).2.2 (by decide)

/-- C6: a fenced code block with a non-empty tag records the tag without
emitting the start event, and text inside such a fence is dispatched by
tag: the reserved tag renders display-mode equation HTML, a tag with a
known grammar renders highlighted HTML, and any other tag wraps the exact
original text in a pre and code block, never failing. -/
theorem fenced_block_dispatch (env : RenderEnv) (fence : Option (List Char))
    (kind s : List Char) :
    (kind ≠ [] → stepEvent env fence (MdEvent.StartFencedCode kind) =
      Except.ok (some kind, [])) ∧
    (∀ h, kind = LATEX_TAG → env.renderBlock s = Except.ok h →
      stepEvent env (some kind) (MdEvent.Text s) =
        Except.ok (some kind, [MdEvent.Html h])) ∧
    (kind ≠ LATEX_TAG → env.hasGrammar kind = true →
      stepEvent env (some kind) (MdEvent.Text s) =
        Except.ok (some kind, [MdEvent.Html (env.highlight kind s)])) ∧
    (kind ≠ LATEX_TAG → env.hasGrammar kind = false →
      stepEvent env (some kind) (MdEvent.Text s) =
        Except.ok (some kind,
          [MdEvent.Html PRE_OPEN, MdEvent.Text s, MdEvent.Html PRE_CLOSE])) := by
  refine ⟨?_, ?_, ?_, ?_⟩
  · intro hk
    simp [stepEvent, hk]
  · intro h hk hr
    subst hk
    simp [stepEvent, hr]
  · intro hk hg
    simp [stepEvent, hk, hg]
  · intro hk hg
    simp [stepEvent, hk, hg]

/-- C6 witness: with a concrete environment, a latex fence renders
display-mode HTML, a rust fence renders highlighted HTML, and an unknown
fence degrades to the escaped verbatim wrapper without failing. -/
theorem fenced_block_dispatch_witness :
    stepEvent sampleEnv none (MdEvent.StartFencedCode ("latex".toList)) =
      Except.ok (some ("latex".toList), []) ∧
    stepEvent sampleEnv (some ("latex".toList)) (MdEvent.Text ("E=mc^2".toList)) =
      Except.ok (some ("latex".toList), [MdEvent.Html ("[E=mc^2".toList)]) ∧
    stepEvent sampleEnv (some ("rust".toList)) (MdEvent.Text ("fn main".toList)) =
      Except.ok (some ("rust".toList), [MdEvent.Html ("!fn main".toList)]) ∧
    stepEvent sampleEnv (some ("zzz".toList)) (MdEvent.Text ("xyz".toList)) =
      Except.ok (some ("zzz".toList),
        [MdEvent.Html PRE_OPEN, MdEvent.Text ("xyz".toList), MdEvent.Html PRE_CLOSE]) := by
  refine ⟨?_, ?_, ?_, ?_⟩
  · exact (fenced_block_dispatch sampleEnv none ("latex".toList) []).1 (by decide)
  · exact (fenced_block_dispatch sampleEnv none ("latex".toList)
      ("E=mc^2".toList)).2.1 ("[E=mc^2".toList) rfl rfl
  · exact (fenced_block_dispatch sampleEnv none ("rust".toList)
      ("fn main".toList)).2.2.1 (by decide) rfl
  · exact (fenced_block_dispatch sampleEnv none ("zzz".toList)
      ("xyz".toList)).2.2.2 (by decide) rfl

/-- C9 counterexample: the one-character inline code text consisting of a
single dollar passes both sigil tests, yet the slice `s[1..s.len() - 1]`
is the range `1..0`, which is out of bounds: the interception panics
instead of being total. -/
theorem sigil_slice_counterexample :
    (['$'].head? = some '$' ∧ ['$'].getLast? = some '$') ∧
    rustSliceInterior ['$'] = none ∧
    stepEvent sampleEnv none (MdEvent.Code ['$']) = Except.error TError.sliceFault := by
  refine ⟨⟨rfl, rfl⟩, rfl, rfl⟩

/-- C9 amended: for every inline code text of length at least two the
sigil-stripping slice is within bounds and yields the text without its
first and last characters; for the one-character dollar text, which also
passes both sigil tests, the slice bounds fail (the code panics). -/
theorem sigil_slice_in_bounds :
    (∀ s : List Char, 2 ≤ s.length →
      rustSliceInterior s = some (List.dropLast (List.drop 1 s))) ∧
    rustSliceInterior ['$'] = none := by
  constructor
  · intro s h
    unfold rustSliceInterior
    rw [if_pos h]
  · rfl

/-- C9 witness: the in-bounds half of the amended claim applied to the
concrete three-character text. -/
theorem sigil_slice_in_bounds_witness :
    rustSliceInterior ("$x$".toList) = some ("x".toList) := by
  have := sigil_slice_in_bounds.1 ("$x$".toList) (by decide)
  simpa using this

/-- C8: on a successful transformation, the output is the in-order
concatenation of one block of events per input event, and every input
event outside the three interception points (relative to the fence state
reached before it) contributes exactly itself as its block. Hence all
non-intercepted events appear unmodified and in their original relative
order, for arbitrary interleavings with intercepted events. -/
theorem transform_preserves_order (env : RenderEnv) (evs : List MdEvent) :
    ∀ fence out, transformEvents env fence evs = Except.ok out →
    ∃ bs : List (List MdEvent),
      out = bs.flatten ∧ bs.length = evs.length ∧
      ∀ k (hk : k < evs.length) (hb : k < bs.length),
        interceptedEvent ((evs.take k).foldl nextFence fence) (evs.get ⟨k, hk⟩) = false →
        bs.get ⟨k, hb⟩ = [evs.get ⟨k, hk⟩] := by
  induction evs with
  | nil =>
    intro fence out h
    simp only [transformEvents] at h
    cases h
    exact ⟨[], rfl, rfl, fun k hk => absurd hk (Nat.not_lt_zero k)⟩
  | cons ev rest ih =>
    intro fence out h
    simp only [transformEvents] at h
    cases hstep : stepEvent env fence ev with
    | error e => rw [hstep] at h; cases h
    | ok sr =>
      rw [hstep] at h
      simp only at h
      cases htail : transformEvents env sr.1 rest with
      | error e => rw [htail] at h; cases h
      | ok out2 =>
        rw [htail] at h
        simp only at h
        cases h
        obtain ⟨bs, hjoin, hlen, hidx⟩ := ih sr.1 out2 htail
        refine ⟨sr.2 :: bs, ?_, ?_, ?_⟩
        · simp [List.flatten, hjoin]
        · simp [hlen]
        · intro k hk hb hni
          cases k with
          | zero =>
            have h0 : interceptedEvent fence ev = false := by simpa using hni
            have hpass := stepEvent_not_intercepted env fence ev h0
            rw [hpass] at hstep
            injection hstep with hsr
            simp [← hsr]
          | succ k =>
            have hst : sr.1 = nextFence fence ev :=
              stepEvent_state env fence sr.1 ev sr.2 (by rw [hstep])
            have hk2 : k < rest.length := Nat.lt_of_succ_lt_succ hk
            have hb2 : k < bs.length := Nat.lt_of_succ_lt_succ (by simpa using hb)
            have hni2 : interceptedEvent ((rest.take k).foldl nextFence sr.1)
                (rest.get ⟨k, hk2⟩) = false := by
              rw [hst]
              simpa [List.take_succ_cons, List.foldl_cons] using hni
            simpa using hidx k hk2 hb2 hni2

/-- C8 witness: a concrete interleaving of an intercepted sigil code event
with two non-intercepted events, with the decomposition guaranteed by the
order-preservation theorem. -/
theorem transform_preserves_order_witness :
    transformEvents sampleEnv none
      [MdEvent.Other 0, MdEvent.Code ("$x$".toList), MdEvent.Other 1] =
      Except.ok [MdEvent.Other 0, MdEvent.Html ("<x".toList), MdEvent.Other 1] ∧
    ∃ bs : List (List MdEvent),
      [MdEvent.Other 0, MdEvent.Html ("<x".toList), MdEvent.Other 1] = bs.flatten ∧
      bs.length = ([MdEvent.Other 0, MdEvent.Code ("$x$".toList),
        MdEvent.Other 1] : List MdEvent).length ∧
      ∀ k (hk : k < ([MdEvent.Other 0, MdEvent.Code ("$x$".toList),
          MdEvent.Other 1] : List MdEvent).length) (hb : k < bs.length),
        interceptedEvent ((([MdEvent.Other 0, MdEvent.Code ("$x$".toList),
            MdEvent.Other 1] : List MdEvent).take k).foldl nextFence none)
          (([MdEvent.Other 0, MdEvent.Code ("$x$".toList),
            MdEvent.Other 1] : List MdEvent).get ⟨k, hk⟩) = false →
        bs.get ⟨k, hb⟩ = [([MdEvent.Other 0, MdEvent.Code ("$x$".toList),
          MdEvent.Other 1] : List MdEvent).get ⟨k, hk⟩] := by
  constructor
  · rfl
  · exact transform_preserves_order sampleEnv
      [MdEvent.Other 0, MdEvent.Code ("$x$".toList), MdEvent.Other 1] none
      [MdEvent.Other 0, MdEvent.Html ("<x".toList), MdEvent.Other 1] rfl

/-! ## LaTeX extraction (src/latex.rs lines 47-93) -/

/-- Models the span type AST of src/latex.rs. -/
inductive AST
  | Literal (s : List Char)
  | InlineEq (s : List Char)
  | BlockEq (s : List Char)
deriving DecidableEq

/-- The block open delimiter of src/latex.rs, two dollars. -/
def BLOCK_START_DELIM : List Char := ['$', '$']

/-- The block close delimiter, identical to the open one. -/
def BLOCK_END_DELIM : List Char := ['$', '$']

/-- The inline open delimiter: two backslashes and an open parenthesis. -/
def INLINE_START_DELIM : List Char := ['\\', '\\', '(']

/-- The inline close delimiter: two backslashes and a close parenthesis. -/
def INLINE_END_DELIM : List Char := ['\\', '\\', ')']

/-- Models nom `take_until(t)` followed by `tag(t)`, the combination
`delimited` uses for the equation body and close delimiter: splits the
input at the first occurrence of `t`, returning the text before `t` and
the text after it; `none` when `t` does not occur (take_until fails). -/
def takeUntilDrop (t : List Char) : List Char → Option (List Char × List Char)
  | [] => if List.isPrefixOf t [] then some ([], []) else none
  | c :: rest =>
    if List.isPrefixOf t (c :: rest) then some ([], List.drop t.length (c :: rest))
    else Option.map (fun pq => (c :: pq.1, pq.2)) (takeUntilDrop t rest)

/-- Models `parse_block_equation` of src/latex.rs:
`delimited(tag($$), take_until($$), tag($$))` mapped to a BlockEq span,
returning the span and the remaining input. -/
def parse_block_equation (i : List Char) : Option (AST × List Char) :=
  if List.isPrefixOf BLOCK_START_DELIM i then
    Option.map (fun pq => (AST.BlockEq pq.1, pq.2))
      (takeUntilDrop BLOCK_END_DELIM (List.drop BLOCK_START_DELIM.length i))
  else none

/-- Models `parse_inline_equation` of src/latex.rs, the inline analogue. -/
def parse_inline_equation (i : List Char) : Option (AST × List Char) :=
  if List.isPrefixOf INLINE_START_DELIM i then
    Option.map (fun pq => (AST.InlineEq pq.1, pq.2))
      (takeUntilDrop INLINE_END_DELIM (List.drop INLINE_START_DELIM.length i))
  else none

/-- Models `parse_text` of src/latex.rs: consume characters until end of
input or a position where an open delimiter starts (the peek of eof, the
block open tag or the inline open tag), returning the consumed literal
and the remainder. It always succeeds. -/
def parse_text : List Char → List Char × List Char
  | [] => ([], [])
  | c :: rest =>
    if List.isPrefixOf BLOCK_START_DELIM (c :: rest) ||
        List.isPrefixOf INLINE_START_DELIM (c :: rest) then ([], c :: rest)
    else (c :: (parse_text rest).1, (parse_text rest).2)

/-- Models the `many_till(alt((block, inline, text)), eof)` loop of
`parse_latex`: at each step eof is checked first, then the three
alternatives in order. When text matches without consuming anything (the
remaining input starts with an open delimiter that the equation parsers
rejected), nom's many_till reports an error carrying the remaining input
(its ManyTill error at the current position), which is the model's error
payload. The fuel argument bounds the number of iterations; every
iteration consumes at least one character, so the initial fuel used by
`parse_latex_nom` never runs out. -/
def parse_latex_loop : Nat → List Char → Except (List Char) (List AST)
  | 0, i => Except.error i
  | n + 1, i =>
    if i = [] then Except.ok []
    else
      match parse_block_equation i with
      | some ar => Except.map (fun l => ar.1 :: l) (parse_latex_loop n ar.2)
      | none =>
        match parse_inline_equation i with
        | some ar => Except.map (fun l => ar.1 :: l) (parse_latex_loop n ar.2)
        | none =>
          if (parse_text i).1 = [] then Except.error i
          else Except.map (fun l => AST.Literal (parse_text i).1 :: l)
            (parse_latex_loop n (parse_text i).2)

/-- Models `parse_latex` of src/latex.rs before its `map_err`: the nom
run whose error carries the unmatched input remainder. -/
def parse_latex_nom (i : List Char) : Except (List Char) (List AST) :=
  parse_latex_loop (i.length + 1) i

/-- Models `parse_latex` of src/latex.rs: any nom error is collapsed by
`map_err` into the constant anyhow message. -/
def parse_latex (i : List Char) : Except (List Char) (List AST) :=
  match parse_latex_nom i with
  | Except.ok l => Except.ok l
  | Except.error _ => Except.error ("Invalid LaTeX delimiters".toList)

/-- The literal reconstruction of a span list: literals verbatim, inline
spans re-wrapped in the inline delimiters, block spans re-wrapped in the
block delimiters, concatenated in order. -/
def reconstruct : List AST → List Char
  | [] => []
  | AST.Literal s :: rest => s ++ reconstruct rest
  | AST.InlineEq s :: rest =>
      INLINE_START_DELIM ++ s ++ INLINE_END_DELIM ++ reconstruct rest
  | AST.BlockEq s :: rest =>
      BLOCK_START_DELIM ++ s ++ BLOCK_END_DELIM ++ reconstruct rest

/-- The claim-side notion of balanced markers, scanning left to right
with the grammar's greedy first-close discipline: at each position, a
block open marker must be followed by a block close (the text up to the
first close becoming the equation body), an inline open marker by an
inline close, and all other characters are literal. On failure the scan
returns the remainder starting at the unmatched open marker. Fuel bounds
the recursion; every step consumes at least one character. -/
def scan_markers_loop : Nat → List Char → Except (List Char) Unit
  | 0, i => Except.error i
  | n + 1, i =>
    match i with
    | [] => Except.ok ()
    | c :: rest =>
      if List.isPrefixOf BLOCK_START_DELIM (c :: rest) then
        match takeUntilDrop BLOCK_END_DELIM
            (List.drop BLOCK_START_DELIM.length (c :: rest)) with
        | some pq => scan_markers_loop n pq.2
        | none => Except.error (c :: rest)
      else if List.isPrefixOf INLINE_START_DELIM (c :: rest) then
        match takeUntilDrop INLINE_END_DELIM
            (List.drop INLINE_START_DELIM.length (c :: rest)) with
        | some pq => scan_markers_loop n pq.2
        | none => Except.error (c :: rest)
      else scan_markers_loop n rest

/-- The balance scan with its fuel fixed to a sufficient value. -/
def scan_markers (i : List Char) : Except (List Char) Unit :=
  scan_markers_loop (i.length + 1) i

/-- Every block and inline open marker in the input has a matching close
marker, in the greedy left-to-right sense of the grammar. -/
def BalancedMarkers (i : List Char) : Prop := scan_markers i = Except.ok ()

/-- A successful takeUntilDrop splits the input around the delimiter. -/
theorem takeUntilDrop_eq (t : List Char) :
    ∀ i p q, takeUntilDrop t i = some (p, q) → i = p ++ t ++ q := by
  intro i
  induction i with
  | nil =>
    intro p q h
    simp only [takeUntilDrop] at h
    split at h
    · next ht =>
      cases h
      have : t = [] := List.prefix_nil.mp (List.isPrefixOf_iff_prefix.mp ht)
      simp [this]
    · cases h
  | cons c rest ih =>
    intro p q h
    simp only [takeUntilDrop] at h
    split at h
    · next ht =>
      cases h
      obtain ⟨s, hs⟩ := List.isPrefixOf_iff_prefix.mp ht
      rw [List.nil_append, ← hs, List.drop_left]
    · next ht =>
      cases hrec : takeUntilDrop t rest with
      | none => rw [hrec] at h; cases h
      | some pq =>
        rw [hrec] at h
        simp only [Option.map_some'] at h
        cases h
        have hr := ih pq.1 pq.2 (by rw [hrec])
        simp [hr]

/-- With a non-empty delimiter, the remainder after a successful
takeUntilDrop is strictly shorter than the input. -/
theorem takeUntilDrop_length (t : List Char) (ht : t ≠ []) (i p q : List Char)
    (h : takeUntilDrop t i = some (p, q)) : q.length < i.length := by
  have hd := takeUntilDrop_eq t i p q h
  have hpos : 0 < t.length := List.length_pos.mpr ht
  rw [hd]
  simp only [List.length_append]
  omega

/-- A successful block-equation parse decomposes the input. -/
theorem parse_block_equation_eq (i : List Char) (ar : AST × List Char)
    (h : parse_block_equation i = some ar) :
    ∃ p, ar.1 = AST.BlockEq p ∧
      i = BLOCK_START_DELIM ++ p ++ BLOCK_END_DELIM ++ ar.2 := by
  unfold parse_block_equation at h
  split at h
  · next hpre =>
    cases htu : takeUntilDrop BLOCK_END_DELIM (List.drop BLOCK_START_DELIM.length i) with
    | none => rw [htu] at h; cases h
    | some pq =>
      rw [htu] at h
      simp only [Option.map_some'] at h
      cases h
      refine ⟨pq.1, rfl, ?_⟩
      have hd := takeUntilDrop_eq BLOCK_END_DELIM _ pq.1 pq.2 (by rw [htu])
      obtain ⟨s, hs⟩ := List.isPrefixOf_iff_prefix.mp hpre
      rw [← hs, List.drop_left] at hd
      rw [← hs, hd]
      simp [List.append_assoc]
  · cases h

/-- A successful inline-equation parse decomposes the input. -/
theorem parse_inline_equation_eq (i : List Char) (ar : AST × List Char)
    (h : parse_inline_equation i = some ar) :
    ∃ p, ar.1 = AST.InlineEq p ∧
      i = INLINE_START_DELIM ++ p ++ INLINE_END_DELIM ++ ar.2 := by
  unfold parse_inline_equation at h
  split at h
  · next hpre =>
    cases htu : takeUntilDrop INLINE_END_DELIM (List.drop INLINE_START_DELIM.length i) with
    | none => rw [htu] at h; cases h
    | some pq =>
      rw [htu] at h
      simp only [Option.map_some'] at h
      cases h
      refine ⟨pq.1, rfl, ?_⟩
      have hd := takeUntilDrop_eq INLINE_END_DELIM _ pq.1 pq.2 (by rw [htu])
      obtain ⟨s, hs⟩ := List.isPrefixOf_iff_prefix.mp hpre
      rw [← hs, List.drop_left] at hd
      rw [← hs, hd]
      simp [List.append_assoc]
  · cases h

/-- The remainder of a successful block-equation parse is shorter. -/
theorem parse_block_equation_length (i : List Char) (ar : AST × List Char)
    (h : parse_block_equation i = some ar) : ar.2.length < i.length := by
  obtain ⟨p, _, hd⟩ := parse_block_equation_eq i ar h
  rw [hd]
  simp only [BLOCK_START_DELIM, BLOCK_END_DELIM, List.length_append, List.length_cons,
    List.length_nil]
  omega

/-- The remainder of a successful inline-equation parse is shorter. -/
theorem parse_inline_equation_length (i : List Char) (ar : AST × List Char)
    (h : parse_inline_equation i = some ar) : ar.2.length < i.length := by
  obtain ⟨p, _, hd⟩ := parse_inline_equation_eq i ar h
  rw [hd]
  simp only [INLINE_START_DELIM, INLINE_END_DELIM, List.length_append, List.length_cons,
    List.length_nil]
  omega

/-- A block open marker excludes an inline open marker at the same
position: the two delimiters differ in their first character. -/
theorem block_excludes_inline (i : List Char)
    (hb : List.isPrefixOf BLOCK_START_DELIM i = true) :
    List.isPrefixOf INLINE_START_DELIM i = false := by
  obtain ⟨s, hs⟩ := List.isPrefixOf_iff_prefix.mp hb
  rw [← hs]
  rfl

/-- An inline open marker excludes a block open marker at the same
position. -/
theorem inline_excludes_block (i : List Char)
    (hi : List.isPrefixOf INLINE_START_DELIM i = true) :
    List.isPrefixOf BLOCK_START_DELIM i = false := by
  obtain ⟨s, hs⟩ := List.isPrefixOf_iff_prefix.mp hi
  rw [← hs]
  rfl

/-- parse_text splits the input into the consumed literal and the rest. -/
theorem parse_text_append : ∀ i : List Char, i = (parse_text i).1 ++ (parse_text i).2 := by
  intro i
  induction i with
  | nil => rfl
  | cons c rest ih =>
    simp only [parse_text]
    split
    · rfl
    · rw [List.cons_append, ← ih]

/-- When the literal consumed by parse_text is non-empty, the remainder
is strictly shorter than the input. -/
theorem parse_text_snd_lt (i : List Char) (h : (parse_text i).1 ≠ []) :
    (parse_text i).2.length < i.length := by
  have hl := congrArg List.length (parse_text_append i)
  rw [List.length_append] at hl
  have hpos : 0 < (parse_text i).1.length := List.length_pos.mpr h
  omega

/-- The balance scan does not depend on the fuel, provided the fuel
exceeds the input length. -/
theorem scan_markers_loop_fuel :
    ∀ n m i, i.length < n → i.length < m →
      scan_markers_loop n i = scan_markers_loop m i := by
  intro n
  induction n with
  | zero => intro m i hn _; exact absurd hn (Nat.not_lt_zero _)
  | succ n' ih =>
    intro m i hn hm
    cases m with
    | zero => exact absurd hm (Nat.not_lt_zero _)
    | succ m' =>
      cases i with
      | nil => rfl
      | cons c rest =>
        simp only [scan_markers_loop]
        split
        · next hb =>
          cases htu : takeUntilDrop BLOCK_END_DELIM
              (List.drop BLOCK_START_DELIM.length (c :: rest)) with
          | none => rfl
          | some pq =>
            show scan_markers_loop n' pq.2 = scan_markers_loop m' pq.2
            apply ih
            · have h1 := takeUntilDrop_length BLOCK_END_DELIM (by decide) _ pq.1 pq.2
                (by rw [htu])
              rw [List.length_drop] at h1
              simp only [List.length_cons] at h1 hn
              omega
            · have h1 := takeUntilDrop_length BLOCK_END_DELIM (by decide) _ pq.1 pq.2
                (by rw [htu])
              rw [List.length_drop] at h1
              simp only [List.length_cons] at h1 hm
              omega
        · split
          · next hi =>
            cases htu : takeUntilDrop INLINE_END_DELIM
                (List.drop INLINE_START_DELIM.length (c :: rest)) with
            | none => rfl
            | some pq =>
              show scan_markers_loop n' pq.2 = scan_markers_loop m' pq.2
              apply ih
              · have h1 := takeUntilDrop_length INLINE_END_DELIM (by decide) _ pq.1 pq.2
                  (by rw [htu])
                rw [List.length_drop] at h1
                simp only [List.length_cons] at h1 hn
                omega
              · have h1 := takeUntilDrop_length INLINE_END_DELIM (by decide) _ pq.1 pq.2
                  (by rw [htu])
                rw [List.length_drop] at h1
                simp only [List.length_cons] at h1 hm
                omega
          · show scan_markers_loop n' rest = scan_markers_loop m' rest
            apply ih
            · simp only [List.length_cons] at hn
              omega
            · simp only [List.length_cons] at hm
              omega

/-- The parse loop does not depend on the fuel, provided the fuel exceeds
the input length. -/
theorem parse_latex_loop_fuel :
    ∀ n m i, i.length < n → i.length < m →
      parse_latex_loop n i = parse_latex_loop m i := by
  intro n
  induction n with
  | zero => intro m i hn _; exact absurd hn (Nat.not_lt_zero _)
  | succ n' ih =>
    intro m i hn hm
    cases m with
    | zero => exact absurd hm (Nat.not_lt_zero _)
    | succ m' =>
      simp only [parse_latex_loop]
      split
      · rfl
      · cases hpb : parse_block_equation i with
        | some ar =>
          have hlen := parse_block_equation_length i ar hpb
          show Except.map _ (parse_latex_loop n' ar.2) = Except.map _ (parse_latex_loop m' ar.2)
          rw [ih m' ar.2 (by omega) (by omega)]
        | none =>
          cases hpi : parse_inline_equation i with
          | some ar =>
            have hlen := parse_inline_equation_length i ar hpi
            show Except.map _ (parse_latex_loop n' ar.2) = Except.map _ (parse_latex_loop m' ar.2)
            rw [ih m' ar.2 (by omega) (by omega)]
          | none =>
            dsimp only
            split
            · rfl
            · next hlit =>
              have hlen := parse_text_snd_lt i hlit
              rw [ih m' (parse_text i).2 (by omega) (by omega)]

/-- Scanning a position with no open marker skips one character. -/
theorem scan_markers_cons_not_marker (c : Char) (rest : List Char)
    (hb : List.isPrefixOf BLOCK_START_DELIM (c :: rest) = false)
    (hi : List.isPrefixOf INLINE_START_DELIM (c :: rest) = false) :
    scan_markers (c :: rest) = scan_markers rest := by
  show scan_markers_loop (rest.length + 1 + 1) (c :: rest) =
    scan_markers_loop (rest.length + 1) rest
  simp [scan_markers_loop, hb, hi]

/-- Scanning a block open marker with a close in sight continues after
the close. -/
theorem scan_markers_block_some (c : Char) (rest : List Char) (pq : List Char × List Char)
    (hb : List.isPrefixOf BLOCK_START_DELIM (c :: rest) = true)
    (htu : takeUntilDrop BLOCK_END_DELIM
      (List.drop BLOCK_START_DELIM.length (c :: rest)) = some pq) :
    scan_markers (c :: rest) = scan_markers pq.2 := by
  have hq : pq.2.length < rest.length + 1 := by
    have h1 := takeUntilDrop_length BLOCK_END_DELIM (by decide) _ pq.1 pq.2 (by rw [htu])
    rw [List.length_drop] at h1
    simp only [List.length_cons] at h1
    omega
  have h1 : scan_markers (c :: rest) = scan_markers_loop (rest.length + 1) pq.2 := by
    show scan_markers_loop (rest.length + 1 + 1) (c :: rest) = _
    simp [scan_markers_loop, hb, htu]
  rw [h1]
  exact scan_markers_loop_fuel (rest.length + 1) (pq.2.length + 1) pq.2 hq (by omega)

/-- Scanning a block open marker with no close in sight fails with the
remainder from the open marker. -/
theorem scan_markers_block_none (c : Char) (rest : List Char)
    (hb : List.isPrefixOf BLOCK_START_DELIM (c :: rest) = true)
    (htu : takeUntilDrop BLOCK_END_DELIM
      (List.drop BLOCK_START_DELIM.length (c :: rest)) = none) :
    scan_markers (c :: rest) = Except.error (c :: rest) := by
  show scan_markers_loop (rest.length + 1 + 1) (c :: rest) = _
  simp [scan_markers_loop, hb, htu]

/-- Scanning an inline open marker with a close in sight continues after
the close. -/
theorem scan_markers_inline_some (c : Char) (rest : List Char) (pq : List Char × List Char)
    (hb : List.isPrefixOf BLOCK_START_DELIM (c :: rest) = false)
    (hi : List.isPrefixOf INLINE_START_DELIM (c :: rest) = true)
    (htu : takeUntilDrop INLINE_END_DELIM
      (List.drop INLINE_START_DELIM.length (c :: rest)) = some pq) :
    scan_markers (c :: rest) = scan_markers pq.2 := by
  have hq : pq.2.length < rest.length + 1 := by
    have h1 := takeUntilDrop_length INLINE_END_DELIM (by decide) _ pq.1 pq.2 (by rw [htu])
    rw [List.length_drop] at h1
    simp only [List.length_cons] at h1
    omega
  have h1 : scan_markers (c :: rest) = scan_markers_loop (rest.length + 1) pq.2 := by
    show scan_markers_loop (rest.length + 1 + 1) (c :: rest) = _
    simp [scan_markers_loop, hb, hi, htu]
  rw [h1]
  exact scan_markers_loop_fuel (rest.length + 1) (pq.2.length + 1) pq.2 hq (by omega)

/-- Scanning an inline open marker with no close in sight fails with the
remainder from the open marker. -/
theorem scan_markers_inline_none (c : Char) (rest : List Char)
    (hb : List.isPrefixOf BLOCK_START_DELIM (c :: rest) = false)
    (hi : List.isPrefixOf INLINE_START_DELIM (c :: rest) = true)
    (htu : takeUntilDrop INLINE_END_DELIM
      (List.drop INLINE_START_DELIM.length (c :: rest)) = none) :
    scan_markers (c :: rest) = Except.error (c :: rest) := by
  show scan_markers_loop (rest.length + 1 + 1) (c :: rest) = _
  simp [scan_markers_loop, hb, hi, htu]

/-- The scan is unchanged by skipping a whole literal run. -/
theorem scan_markers_parse_text (i : List Char) :
    scan_markers i = scan_markers (parse_text i).2 := by
  induction i with
  | nil => rfl
  | cons c rest ih =>
    by_cases hb : List.isPrefixOf BLOCK_START_DELIM (c :: rest) = true
    · have hpt : parse_text (c :: rest) = ([], c :: rest) := by simp [parse_text, hb]
      rw [hpt]
    · by_cases hi : List.isPrefixOf INLINE_START_DELIM (c :: rest) = true
      · have hpt : parse_text (c :: rest) = ([], c :: rest) := by simp [parse_text, hi]
        rw [hpt]
      · have hb' : List.isPrefixOf BLOCK_START_DELIM (c :: rest) = false :=
          Bool.eq_false_iff.mpr hb
        have hi' : List.isPrefixOf INLINE_START_DELIM (c :: rest) = false :=
          Bool.eq_false_iff.mpr hi
        have hpt : parse_text (c :: rest) = (c :: (parse_text rest).1, (parse_text rest).2) := by
          simp [parse_text, hb', hi']
        rw [hpt, scan_markers_cons_not_marker c rest hb' hi', ih]

/-- The parse of the empty input yields no spans. -/
theorem parse_latex_nom_nil : parse_latex_nom [] = Except.ok [] := rfl

/-- Unfolding the parse at a successful block equation. -/
theorem parse_latex_nom_block (i : List Char) (ar : AST × List Char)
    (h : parse_block_equation i = some ar) :
    parse_latex_nom i = Except.map (fun l => ar.1 :: l) (parse_latex_nom ar.2) := by
  cases i with
  | nil => simp [parse_block_equation, List.isPrefixOf, BLOCK_START_DELIM] at h
  | cons c rest =>
    have hlen := parse_block_equation_length _ ar h
    have h1 : parse_latex_nom (c :: rest) =
        Except.map (fun l => ar.1 :: l) (parse_latex_loop (rest.length + 1) ar.2) := by
      show parse_latex_loop (rest.length + 1 + 1) (c :: rest) = _
      simp [parse_latex_loop, h]
    rw [h1, parse_latex_loop_fuel (rest.length + 1) (ar.2.length + 1) ar.2
      (by simp only [List.length_cons] at hlen; omega) (by omega)]
    rfl

/-- Unfolding the parse at a successful inline equation. -/
theorem parse_latex_nom_inline (i : List Char) (ar : AST × List Char)
    (hb : parse_block_equation i = none)
    (h : parse_inline_equation i = some ar) :
    parse_latex_nom i = Except.map (fun l => ar.1 :: l) (parse_latex_nom ar.2) := by
  cases i with
  | nil => simp [parse_inline_equation, List.isPrefixOf, INLINE_START_DELIM] at h
  | cons c rest =>
    have hlen := parse_inline_equation_length _ ar h
    have h1 : parse_latex_nom (c :: rest) =
        Except.map (fun l => ar.1 :: l) (parse_latex_loop (rest.length + 1) ar.2) := by
      show parse_latex_loop (rest.length + 1 + 1) (c :: rest) = _
      simp [parse_latex_loop, hb, h]
    rw [h1, parse_latex_loop_fuel (rest.length + 1) (ar.2.length + 1) ar.2
      (by simp only [List.length_cons] at hlen; omega) (by omega)]
    rfl

/-- Unfolding the parse at a position where both equation parsers fail
and the literal parser consumes nothing: the many_till error carrying the
remaining input. -/
theorem parse_latex_nom_text_error (i : List Char) (hne : i ≠ [])
    (hb : parse_block_equation i = none) (hi : parse_inline_equation i = none)
    (h1 : (parse_text i).1 = []) : parse_latex_nom i = Except.error i := by
  cases i with
  | nil => exact absurd rfl hne
  | cons c rest =>
    show parse_latex_loop (rest.length + 1 + 1) (c :: rest) = _
    simp [parse_latex_loop, hb, hi, h1]

/-- Unfolding the parse at a non-empty literal run. -/
theorem parse_latex_nom_text (i : List Char) (hne : i ≠ [])
    (hb : parse_block_equation i = none) (hi : parse_inline_equation i = none)
    (h1 : (parse_text i).1 ≠ []) :
    parse_latex_nom i = Except.map (fun l => AST.Literal (parse_text i).1 :: l)
      (parse_latex_nom (parse_text i).2) := by
  cases i with
  | nil => exact absurd rfl hne
  | cons c rest =>
    have hlen := parse_text_snd_lt (c :: rest) h1
    have h2 : parse_latex_nom (c :: rest) =
        Except.map (fun l => AST.Literal (parse_text (c :: rest)).1 :: l)
          (parse_latex_loop (rest.length + 1) (parse_text (c :: rest)).2) := by
      show parse_latex_loop (rest.length + 1 + 1) (c :: rest) = _
      simp [parse_latex_loop, hb, hi, h1]
    rw [h2, parse_latex_loop_fuel (rest.length + 1) ((parse_text (c :: rest)).2.length + 1) _
      (by simp only [List.length_cons] at hlen; omega) (by omega)]
    rfl

/-- The parse agrees with the balance scan: on balanced input the parse
succeeds and its spans reconstruct the input; on unbalanced input the
parse fails with exactly the scan's unmatched remainder. -/
theorem parse_scan_main :
    ∀ n i, i.length < n →
      (scan_markers i = Except.ok () →
        ∃ l, parse_latex_nom i = Except.ok l ∧ reconstruct l = i) ∧
      (∀ r, scan_markers i = Except.error r → parse_latex_nom i = Except.error r) := by
  intro n
  induction n with
  | zero => intro i hn; exact absurd hn (Nat.not_lt_zero _)
  | succ n' ih =>
    intro i hn
    cases i with
    | nil =>
      constructor
      · intro _
        exact ⟨[], rfl, rfl⟩
      · intro r hr
        exact Except.noConfusion hr
    | cons c rest =>
      by_cases hb : List.isPrefixOf BLOCK_START_DELIM (c :: rest) = true
      · cases htu : takeUntilDrop BLOCK_END_DELIM
            (List.drop BLOCK_START_DELIM.length (c :: rest)) with
        | some pq =>
          have hpbe : parse_block_equation (c :: rest) = some (AST.BlockEq pq.1, pq.2) := by
            simp [parse_block_equation, hb, htu]
          have hscan := scan_markers_block_some c rest pq hb htu
          have hnom := parse_latex_nom_block _ _ hpbe
          have hq2 : pq.2.length < (c :: rest).length := by
            have h1 := takeUntilDrop_length BLOCK_END_DELIM (by decide) _ pq.1 pq.2
              (by rw [htu])
            rw [List.length_drop] at h1
            simp only [List.length_cons] at h1 ⊢
            omega
          have ihq := ih pq.2 (by omega)
          constructor
          · intro hok
            rw [hscan] at hok
            obtain ⟨l, hpl, hrec⟩ := ihq.1 hok
            refine ⟨AST.BlockEq pq.1 :: l, ?_, ?_⟩
            · rw [hnom, hpl]
              rfl
            · show BLOCK_START_DELIM ++ pq.1 ++ BLOCK_END_DELIM ++ reconstruct l = c :: rest
              rw [hrec]
              have hdec := takeUntilDrop_eq BLOCK_END_DELIM _ pq.1 pq.2 (by rw [htu])
              obtain ⟨s, hs⟩ := List.isPrefixOf_iff_prefix.mp hb
              rw [← hs, List.drop_left] at hdec
              rw [← hs, hdec]
              simp [List.append_assoc]
          · intro r herr
            rw [hscan] at herr
            have h2 := ihq.2 r herr
            rw [hnom, h2]
            rfl
        | none =>
          have hscan := scan_markers_block_none c rest hb htu
          have hpbe : parse_block_equation (c :: rest) = none := by
            simp [parse_block_equation, hb, htu]
          have hi' := block_excludes_inline _ hb
          have hpie : parse_inline_equation (c :: rest) = none := by
            simp [parse_inline_equation, hi']
          have hpt1 : (parse_text (c :: rest)).1 = [] := by
            simp [parse_text, hb]
          have hnom := parse_latex_nom_text_error (c :: rest) (by simp) hpbe hpie hpt1
          constructor
          · intro hok
            rw [hscan] at hok
            cases hok
          · intro r herr
            rw [hscan] at herr
            cases herr
            exact hnom
      · have hb' : List.isPrefixOf BLOCK_START_DELIM (c :: rest) = false :=
          Bool.eq_false_iff.mpr hb
        by_cases hi : List.isPrefixOf INLINE_START_DELIM (c :: rest) = true
        · cases htu : takeUntilDrop INLINE_END_DELIM
              (List.drop INLINE_START_DELIM.length (c :: rest)) with
          | some pq =>
            have hpie : parse_inline_equation (c :: rest) = some (AST.InlineEq pq.1, pq.2) := by
              simp [parse_inline_equation, hi, htu]
            have hpbe : parse_block_equation (c :: rest) = none := by
              simp [parse_block_equation, hb']
            have hscan := scan_markers_inline_some c rest pq hb' hi htu
            have hnom := parse_latex_nom_inline _ _ hpbe hpie
            have hq2 : pq.2.length < (c :: rest).length := by
              have h1 := takeUntilDrop_length INLINE_END_DELIM (by decide) _ pq.1 pq.2
                (by rw [htu])
              rw [List.length_drop] at h1
              simp only [List.length_cons] at h1 ⊢
              omega
            have ihq := ih pq.2 (by omega)
            constructor
            · intro hok
              rw [hscan] at hok
              obtain ⟨l, hpl, hrec⟩ := ihq.1 hok
              refine ⟨AST.InlineEq pq.1 :: l, ?_, ?_⟩
              · rw [hnom, hpl]
                rfl
              · show INLINE_START_DELIM ++ pq.1 ++ INLINE_END_DELIM ++ reconstruct l = c :: rest
                rw [hrec]
                have hdec := takeUntilDrop_eq INLINE_END_DELIM _ pq.1 pq.2 (by rw [htu])
                obtain ⟨s, hs⟩ := List.isPrefixOf_iff_prefix.mp hi
                rw [← hs, List.drop_left] at hdec
                rw [← hs, hdec]
                simp [List.append_assoc]
            · intro r herr
              rw [hscan] at herr
              have h2 := ihq.2 r herr
              rw [hnom, h2]
              rfl
          | none =>
            have hscan := scan_markers_inline_none c rest hb' hi htu
            have hpbe : parse_block_equation (c :: rest) = none := by
              simp [parse_block_equation, hb']
            have hpie : parse_inline_equation (c :: rest) = none := by
              simp [parse_inline_equation, hi, htu]
            have hpt1 : (parse_text (c :: rest)).1 = [] := by
              simp [parse_text, hi]
            have hnom := parse_latex_nom_text_error (c :: rest) (by simp) hpbe hpie hpt1
            constructor
            · intro hok
              rw [hscan] at hok
              cases hok
            · intro r herr
              rw [hscan] at herr
              cases herr
              exact hnom
        · have hi' : List.isPrefixOf INLINE_START_DELIM (c :: rest) = false :=
            Bool.eq_false_iff.mpr hi
          have hpbe : parse_block_equation (c :: rest) = none := by
            simp [parse_block_equation, hb']
          have hpie : parse_inline_equation (c :: rest) = none := by
            simp [parse_inline_equation, hi']
          have hpt : parse_text (c :: rest) =
              (c :: (parse_text rest).1, (parse_text rest).2) := by
            simp [parse_text, hb', hi']
          have hpt1ne : (parse_text (c :: rest)).1 ≠ [] := by
            rw [hpt]
            simp
          have hscan := scan_markers_parse_text (c :: rest)
          have hnom := parse_latex_nom_text (c :: rest) (by simp) hpbe hpie hpt1ne
          have hlen := parse_text_snd_lt (c :: rest) hpt1ne
          have ihq := ih (parse_text (c :: rest)).2 (by omega)
          constructor
          · intro hok
            rw [hscan] at hok
            obtain ⟨l, hpl, hrec⟩ := ihq.1 hok
            refine ⟨AST.Literal (parse_text (c :: rest)).1 :: l, ?_, ?_⟩
            · rw [hnom, hpl]
              rfl
            · show (parse_text (c :: rest)).1 ++ reconstruct l = c :: rest
              rw [hrec, ← parse_text_append]
          · intro r herr
            rw [hscan] at herr
            have h2 := ihq.2 r herr
            rw [hnom, h2]
            rfl

/-- C2: for every input in which every block and inline open marker has a
matching close marker, parse_latex succeeds, and concatenating its spans
with each equation span re-wrapped in its delimiters reproduces the input
exactly. -/
theorem parse_latex_round_trip (i : List Char) (h : BalancedMarkers i) :
    ∃ l, parse_latex i = Except.ok l ∧ reconstruct l = i := by
  obtain ⟨l, hp, hr⟩ := (parse_scan_main (i.length + 1) i (by omega)).1 h
  refine ⟨l, ?_, hr⟩
  unfold parse_latex
  rw [hp]

/-- C2 witness: the round trip on the concrete balanced input of the
repository's own test. -/
theorem parse_latex_round_trip_witness :
    BalancedMarkers ("one two $$N=1$$ three".toList) ∧
    ∃ l, parse_latex ("one two $$N=1$$ three".toList) = Except.ok l ∧
      reconstruct l = "one two $$N=1$$ three".toList :=
  ⟨rfl, parse_latex_round_trip ("one two $$N=1$$ three".toList) rfl⟩

/-- C4: for every input with an unmatched open marker, the nom-level run
of parse_latex fails with a single error carrying exactly the unmatched
input remainder (no spans are returned: the parse is all-or-nothing), and
parse_latex collapses it into its constant delimiter-error message. -/
theorem parse_latex_unmatched_fails (i r : List Char)
    (h : scan_markers i = Except.error r) :
    parse_latex_nom i = Except.error r ∧
    parse_latex i = Except.error ("Invalid LaTeX delimiters".toList) := by
  have h2 := (parse_scan_main (i.length + 1) i (by omega)).2 r h
  refine ⟨h2, ?_⟩
  unfold parse_latex
  rw [h2]

/-- C4 witness: the unmatched input of the repository's own test fails
with the remainder starting at the unmatched open marker. -/
theorem parse_latex_unmatched_fails_witness :
    scan_markers ("one two $$ three".toList) = Except.error ("$$ three".toList) ∧
    parse_latex_nom ("one two $$ three".toList) = Except.error ("$$ three".toList) ∧
    parse_latex ("one two $$ three".toList) =
      Except.error ("Invalid LaTeX delimiters".toList) := by
  refine ⟨rfl, ?_, ?_⟩
  · exact (parse_latex_unmatched_fails ("one two $$ three".toList)
      ("$$ three".toList) rfl).1
  · exact (parse_latex_unmatched_fails ("one two $$ three".toList)
      ("$$ three".toList) rfl).2
